import Mathlib

/-!
Shallow embedding of the Black-Sigatoka latent-ODE forecasting system
(`train.py`, `test_in.py`, `mr_node/model/model.py`) and proofs of the
specification's claims about it.

Conventions: machine floats are modelled by `ℚ` (or `ℝ` where logarithms
appear), tensors by lists, and the random-number generator by an explicit
stream of draws threaded through the computation.
-/

namespace BlackSigatoka

/-! ## Hyperparameters (`mr_node/hyperparams.py`, fields as constructed in
`train.py:get_hyperparameters`) -/

/-- Modelled from the spec: `Hyperparameters` is an immutable configuration
record (the module `mr_node/hyperparams.py` is not in the sources); its
fields are exactly those passed by `train.py:get_hyperparameters`. -/
structure Hyperparameters where
  region : String
  solver : String
  lr : ℚ
  dropout_rate : ℚ
  input_dims : ℕ
  output_dims : ℕ
  encoder_fc_dims : List ℤ
  hidden_dims : ℕ
  odefunc_fc_dims : List ℤ
  decoder_fc_dims : List ℤ
  std : ℚ
  window_length : ℕ
  num_epochs : ℕ
  rtol : ℚ
  atol : ℚ
  deriving DecidableEq, Repr

/-! ## Python number formatting, as used by the f-string in
`train.py:get_job_id` -/

/-- Round `N / D` (with `D > 0`) to the nearest natural number, ties to
even — the rounding CPython applies when formatting a value to a fixed
number of decimals. -/
def rneNat (N D : ℕ) : ℕ :=
  let q := N / D
  let r := N % D
  if 2 * r < D then q
  else if D < 2 * r then q + 1
  else if q % 2 = 0 then q else q + 1

/-- Fuel-driven base-10 logarithm: `log10f fuel m` is `⌊log₁₀ m⌋` for
`m ≥ 1` whenever `fuel ≥ m`. -/
def log10f : ℕ → ℕ → ℕ
  | 0, _ => 0
  | fuel + 1, m => if m < 10 then 0 else log10f fuel (m / 10) + 1

/-- Fuel-driven base-10 ceiling logarithm: `clog10f fuel m` is the least
`k` with `m ≤ 10 ^ k`, whenever `fuel ≥ m`. -/
def clog10f : ℕ → ℕ → ℕ
  | 0, _ => 0
  | fuel + 1, m => if m ≤ 1 then 0 else clog10f fuel ((m + 9) / 10) + 1

/-- The decimal exponent `e` of a rational given as `n / d` (both positive):
the unique integer with `10 ^ e ≤ n / d < 10 ^ (e + 1)`. -/
def decExp (n d : ℕ) : ℤ :=
  if d ≤ n then (log10f (n / d) (n / d) : ℤ)
  else -(clog10f ((d + n - 1) / n) ((d + n - 1) / n) : ℤ)

/-- A natural number padded to at least two digits. -/
def fmtNat2 (n : ℕ) : String :=
  if n < 10 then "0" ++ toString n else toString n

/-- The exponent part of Python scientific notation: a sign followed by at
least two digits. -/
def fmtExp (e : ℤ) : String :=
  if e < 0 then "-" ++ fmtNat2 (Int.toNat (-e)) else "+" ++ fmtNat2 (Int.toNat e)

/-- Python's `f"{x:.1e}"`: one significant decimal of scientific notation.
Models the float formatting applied to `hyperparams.lr` in `get_job_id`. -/
def fmtSci1 (q : ℚ) : String :=
  if q.num = 0 then "0.0e+00"
  else
    let sign := if q.num < 0 then "-" else ""
    let n := q.num.natAbs
    let d := q.den
    let e := decExp n d
    -- the mantissa scaled by 10 and rounded: `rne (|q| * 10 ^ (1 - e))`
    let m :=
      if 0 ≤ e then rneNat (n * 10) (d * 10 ^ e.toNat)
      else rneNat (n * 10 ^ ((-e).toNat + 1)) d
    let p := if 100 ≤ m then ((10 : ℕ), e + 1) else (m, e)
    sign ++ s!"{p.1 / 10}.{p.1 % 10}e" ++ fmtExp p.2

/-- Decimal digits of the fraction `r / D` (with `r < D`), stopping at an
exact zero remainder or after `fuel` digits. -/
def fracDigitsND : ℕ → ℕ → ℕ → List ℕ
  | 0, _, _ => []
  | fuel + 1, r, D =>
    if r = 0 then [] else r * 10 / D :: fracDigitsND fuel (r * 10 % D) D

/-- Concatenate decimal digits into a string. -/
def digitsString (ds : List ℕ) : String :=
  String.join (ds.map toString)

/-- Python's `repr` of a float (as interpolated by `f"{x}"` for the `rtol`
and `atol` fields of `get_job_id`), for rationals whose decimal expansion
terminates within 17 digits: positional notation when the decimal exponent
is in `[-4, 16)`, scientific notation otherwise. -/
def fmtPyFloat (q : ℚ) : String :=
  if q.num = 0 then "0.0"
  else
    let sign := if q.num < 0 then "-" else ""
    let n := q.num.natAbs
    let d := q.den
    let e := decExp n d
    if e < -4 ∨ 16 ≤ e then
      -- scientific: the mantissa is `N / D ∈ [1, 10)`
      let N := if 0 ≤ e then n else n * 10 ^ (-e).toNat
      let D := if 0 ≤ e then d * 10 ^ e.toNat else d
      let ds := fracDigitsND 17 (N % D) D
      let mant :=
        if ds.isEmpty then toString (N / D)
        else s!"{N / D}." ++ digitsString ds
      sign ++ mant ++ "e" ++ fmtExp e
    else
      let ds := fracDigitsND 17 (n % d) d
      let frac := if ds.isEmpty then "0" else digitsString ds
      sign ++ s!"{n / d}." ++ frac

/-- Python's `repr` of a list of ints, as interpolated by `f"{dims}"`. -/
def reprIntList (l : List ℤ) : String :=
  "[" ++ String.intercalate ", " (l.map toString) ++ "]"

/-! ## `train.py:get_job_id` -/

/-- `train.py:get_job_id`: the job-identifier string built from the
hyperparameter fields by f-string concatenation. -/
def get_job_id (h : Hyperparameters) : String :=
  h.region
    ++ "_" ++ h.solver
    ++ "_lr" ++ fmtSci1 h.lr
    ++ "_enc" ++ reprIntList h.encoder_fc_dims
    ++ "_hidden" ++ toString h.hidden_dims
    ++ "_ode" ++ reprIntList h.odefunc_fc_dims
    ++ "_dec" ++ reprIntList h.decoder_fc_dims
    ++ "_window" ++ toString h.window_length
    ++ "_epochs" ++ toString h.num_epochs
    ++ "_rtol" ++ fmtPyFloat h.rtol
    ++ "_atol" ++ fmtPyFloat h.atol

/-- A concrete hyperparameter record (the defaults of `train.py:parse_args`,
learning rate `2e-4` from `sbatch_train.py`). -/
def hpA : Hyperparameters :=
  { region := "cr", solver := "euler", lr := mkRat 2 10000,
    dropout_rate := mkRat 1 2, input_dims := 4, output_dims := 1,
    encoder_fc_dims := [8, 16, 8], hidden_dims := 4,
    odefunc_fc_dims := [64, 64], decoder_fc_dims := [8, 16, 8],
    std := mkRat 1 10, window_length := 128, num_epochs := 1,
    rtol := mkRat 1 10000, atol := mkRat 1 1000000 }

/-- `hpA` with the learning rate changed to `2.04e-4`: a distinct tuple whose
learning rate renders to the same one-decimal scientific string. -/
def hpB : Hyperparameters :=
  { hpA with lr := mkRat 51 250000 }

/-! ## Tensors and network components

Tensors are lists of rational vectors. The `Encoder`, `Decoder` and
`ODEFunc` modules of `mr_node` are not among the sources; they are
modelled from the spec (§4.2–§4.4) as a recurrent cell, feed-forward
networks, and a covariate-driven vector field. -/

/-- A feature vector (one row of a tensor). -/
abbrev Vec := List ℚ

/-- Dot product of two feature vectors. -/
def dotQ (a b : Vec) : ℚ :=
  (List.zipWith (· * ·) a b).sum

/-- One affine (`torch.nn.Linear`) layer: a weight matrix and a bias. -/
structure LinLayer where
  w : List Vec
  b : Vec

/-- Apply an affine layer to an input vector. -/
def LinLayer.apply (L : LinLayer) (x : Vec) : Vec :=
  List.zipWith (fun row bi => dotQ row x + bi) L.w L.b

/-- Rectified linear unit. -/
def reluQ (q : ℚ) : ℚ := max q 0

/-- Modelled from the spec: a feed-forward network with a configurable
stack of hidden projection widths followed by a final affine readout
(`mr_node/model/decoder.py` and the `ODEFunc` net are not in the sources). -/
structure MLP where
  hidden : List LinLayer
  final : LinLayer

/-- Apply the network: hidden layers with nonlinearity, then the readout. -/
def MLP.apply (m : MLP) (x : Vec) : Vec :=
  m.final.apply (m.hidden.foldl (fun v L => (L.apply v).map reluQ) x)

/-- Modelled from the spec: a single fixed-size-state sequence encoder
(`mr_node/model/encoder.py` is not in the sources); any recurrent cell is
admitted, here an affine cell on the concatenated state and input. -/
structure Encoder where
  cell : LinLayer

/-- Run the encoder over a sequence from an initial hidden state,
returning the final hidden state (the `h` of `_, h = self.encoder(...)`). -/
def Encoder.run (E : Encoder) (xs : List Vec) (h₀ : Vec) : Vec :=
  xs.foldl (fun h x => E.cell.apply (h ++ x)) h₀

/-- The parts of a `Data` object (`mr_node/data.py`, not in the sources)
that the model and the scripts read: covariate rows, target rows, and the
normalization statistics of the target channel. -/
structure Dataset where
  weather : List Vec
  infect : List Vec
  infect_means : ℚ
  infect_stds : ℚ
  window_length : ℕ

/-- Modelled from the spec: the `ODEFunc` vector field
(`mr_node/model/odefunc.py` is not in the sources) holds the live
`Dataset` back-reference, the `start_time` offset, and a feed-forward net
over the concatenated latent state and covariate. -/
structure ODEFunc where
  data : Dataset
  start_time : ℚ
  net : MLP

/-- Modelled from the spec: evaluate the vector field `f(t, h)`; the
covariate row is looked up at the position corresponding to elapsed time
`t + start_time` (floor policy for intermediate times). -/
def ODEFunc.eval (f : ODEFunc) (t : ℚ) (h : Vec) : Vec :=
  f.net.apply (h ++ f.data.weather.getD (⌊t + f.start_time⌋).toNat [])

/-! ## The integrator (`torchdiffeq.odeint`, explicit-Euler method)

`train.py` selects the solver by name with default `"euler"`; the
embedding models that fixed-step method.  Alongside the solution states
the embedding records the times at which the vector field was evaluated,
so that the time-zeroing claim can be stated. -/

/-- Euler steps from state `y` at time `t` through the remaining mesh
points, returning the states at `t :: rest` and the evaluation times. -/
def eulerGo (f : ℚ → Vec → Vec) : Vec → ℚ → List ℚ → List Vec × List ℚ
  | y, _, [] => ([y], [])
  | y, t, t' :: rest =>
    let y' := List.zipWith (· + ·) y ((f t y).map ((t' - t) * ·))
    let p := eulerGo f y' t' rest
    (y :: p.1, t :: p.2)

/-- `odeint` with the explicit-Euler method: the solution at each
requested time, plus the times at which `f` was evaluated. -/
def odeintEuler (f : ℚ → Vec → Vec) (y0 : Vec) : List ℚ → List Vec × List ℚ
  | [] => ([], [])
  | t :: rest => eulerGo f y0 t rest

/-! ## `Model.forward` (`mr_node/model/model.py`) -/

/-- The model: hyperparameters and the three parameterized components. -/
structure Model where
  hyperparams : Hyperparameters
  encoder : Encoder
  odefunc : ODEFunc
  decoder : MLP

/-- Everything observable about one `Model.forward` call: its return value
plus the internal values the claims speak about. -/
structure ForwardResult where
  output : List Vec
  enc_input : List Vec
  h_init : Vec
  start_time : ℚ
  shifted_times : List ℚ
  queried : List ℚ

/-- `Model.forward` from `mr_node/model/model.py`, with the fresh random
draw for the initial hidden state passed in as `noise`. -/
def Model.forward (M : Model) (weather_window infect_window : List Vec)
    (time_window : List ℚ) (noise : Vec) : ForwardResult :=
  -- data_window = torch.cat((weather_window, infect_window), dim=2)
  let data_window := List.zipWith (· ++ ·) weather_window infect_window
  -- reversed_data_window = data_window.flip(0)
  let reversed_data_window := data_window.reverse
  -- h_init = torch.randn(1, 1, hidden_dims)
  let h_init := noise
  -- _, h = self.encoder(reversed_data_window, h_init)
  let h := M.encoder.run reversed_data_window h_init
  -- start_time = time_window[0]; self.odefunc.start_time = start_time
  let start_time := time_window.headD 0
  let f := { M.odefunc with start_time := start_time }
  -- time_window = time_window - start_time
  let shifted := time_window.map (· - start_time)
  -- hs = torchdiffeq.odeint(self.odefunc, h, time_window, ...)
  let p := odeintEuler f.eval h shifted
  -- return self.decoder(hs)
  { output := p.1.map M.decoder.apply
    enc_input := reversed_data_window
    h_init := h_init
    start_time := start_time
    shifted_times := shifted
    queried := p.2 }

/-- The stream of i.i.d. `torch.randn` draws, with a position counter:
each call to `randn` consumes the draw at the current position. -/
structure Rng where
  stream : ℕ → Vec
  pos : ℕ

/-- A forward call as the training scripts make it: the initial hidden
state is freshly sampled from the random stream, which advances. -/
def Model.forwardR (M : Model) (r : Rng) (weather_window infect_window : List Vec)
    (time_window : List ℚ) : ForwardResult × Rng :=
  (M.forward weather_window infect_window time_window (r.stream r.pos),
    ⟨r.stream, r.pos + 1⟩)

/-! ## Shape and trace lemmas for the forward pass -/

theorem linLayer_apply_length (L : LinLayer) (x : Vec) :
    (L.apply x).length = min L.w.length L.b.length := by
  simp [LinLayer.apply]

theorem mlp_apply_length (m : MLP) (x : Vec) :
    (m.apply x).length = min m.final.w.length m.final.b.length := by
  simp [MLP.apply, linLayer_apply_length]

theorem eulerGo_fst_length (f : ℚ → Vec → Vec) :
    ∀ (ts : List ℚ) (y : Vec) (t : ℚ), (eulerGo f y t ts).1.length = ts.length + 1 := by
  intro ts
  induction ts with
  | nil => intro y t; rfl
  | cons t' rest ih => intro y t; simp [eulerGo, ih]

theorem odeintEuler_fst_length (f : ℚ → Vec → Vec) (y0 : Vec) (ts : List ℚ) :
    (odeintEuler f y0 ts).1.length = ts.length := by
  cases ts with
  | nil => rfl
  | cons t rest => simp [odeintEuler, eulerGo_fst_length]

theorem eulerGo_snd (f : ℚ → Vec → Vec) :
    ∀ (ts : List ℚ) (y : Vec) (t : ℚ), (eulerGo f y t ts).2 = (t :: ts).dropLast := by
  intro ts
  induction ts with
  | nil => intro y t; rfl
  | cons t' rest ih => intro y t; simp [eulerGo, ih]

theorem odeintEuler_snd (f : ℚ → Vec → Vec) (y0 : Vec) (ts : List ℚ) :
    (odeintEuler f y0 ts).2 = ts.dropLast := by
  cases ts with
  | nil => rfl
  | cons t rest => simp [odeintEuler, eulerGo_snd]

/-! ## Checkpoint policy (`train.py`, end of the epoch loop)

`lowest_valid_avg_loss` starts as `None`; after computing an epoch's average
validation loss the trainer runs
`if lowest_valid_avg_loss is None or valid_avg_loss < lowest_valid_avg_loss`
and, when the test passes, updates the running lowest and saves the model. -/

/-- The epochs at which `train.py` saves a checkpoint, given the remaining
per-epoch average validation losses, the current `lowest_valid_avg_loss`
(`none` before the first epoch) and the index of the next epoch. -/
def checkpointsFrom : Option ℚ → ℕ → List ℚ → List ℕ
  | _, _, [] => []
  | none, e, l :: rest => e :: checkpointsFrom (some l) (e + 1) rest
  | some b, e, l :: rest =>
    if l < b then e :: checkpointsFrom (some l) (e + 1) rest
    else checkpointsFrom (some b) (e + 1) rest

/-- The epochs at which a checkpoint is written for a run whose per-epoch
average validation losses are `losses`. -/
def checkpointEpochs (losses : List ℚ) : List ℕ :=
  checkpointsFrom none 0 losses

theorem mem_checkpointsFrom_some (L : List ℚ) : ∀ (b : ℚ) (e x : ℕ),
    x ∈ checkpointsFrom (some b) e L ↔
      ∃ i, ∃ hi : i < L.length, x = e + i ∧ L[i] < b ∧
        ∀ y ∈ L.take i, L[i] < y := by
  induction L with
  | nil => simp [checkpointsFrom]
  | cons l rest ih =>
    intro b e x
    simp only [checkpointsFrom]
    by_cases hlb : l < b
    · simp only [if_pos hlb, List.mem_cons]
      constructor
      · rintro (rfl | hx)
        · exact ⟨0, by simp, by simp, by simpa using hlb, by simp⟩
        · obtain ⟨i, hi, rfl, hlt, hall⟩ := (ih l (e + 1) x).1 hx
          refine ⟨i + 1, by simp; omega, by omega, ?_, ?_⟩
          · simpa using hlt.trans hlb
          · intro y hy
            rw [List.take_succ_cons, List.mem_cons] at hy
            rcases hy with rfl | hy
            · simpa using hlt
            · simpa using hall y hy
      · rintro ⟨i, hi, rfl, hlt, hall⟩
        cases i with
        | zero => left; omega
        | succ i' =>
          right
          refine (ih l (e + 1) _).2 ⟨i', by simp at hi; omega,
            by omega, ?_, ?_⟩
          · have := hall l (by simp [List.take_succ_cons])
            simpa using this
          · intro y hy
            have := hall y (by rw [List.take_succ_cons, List.mem_cons]; right; exact hy)
            simpa using this
    · simp only [if_neg hlb]
      rw [ih b (e + 1) x]
      constructor
      · rintro ⟨i, hi, rfl, hlt, hall⟩
        refine ⟨i + 1, by simp; omega, by omega, by simpa using hlt, ?_⟩
        intro y hy
        rw [List.take_succ_cons, List.mem_cons] at hy
        rcases hy with rfl | hy
        · simp only [List.getElem_cons_succ]
          exact hlt.trans_le (not_lt.1 hlb)
        · simpa using hall y hy
      · rintro ⟨i, hi, rfl, hlt, hall⟩
        cases i with
        | zero =>
          exact absurd (by simpa using hlt) hlb
        | succ i' =>
          refine ⟨i', by simp at hi; omega, by omega,
            by simpa using hlt, ?_⟩
          intro y hy
          have := hall y (by rw [List.take_succ_cons, List.mem_cons]; right; exact hy)
          simpa using this

theorem mem_checkpointEpochs (L : List ℚ) (x : ℕ) :
    x ∈ checkpointEpochs L ↔
      ∃ hx : x < L.length, ∀ y ∈ L.take x, L[x] < y := by
  unfold checkpointEpochs
  cases L with
  | nil => simp [checkpointsFrom]
  | cons l rest =>
    simp only [checkpointsFrom, List.mem_cons]
    constructor
    · rintro (rfl | hx)
      · exact ⟨by simp, by simp⟩
      · obtain ⟨i, hi, rfl, hlt, hall⟩ := (mem_checkpointsFrom_some rest l 1 x).1 hx
        refine ⟨by simp; omega, ?_⟩
        intro y hy
        have hx1 : 0 + 1 + i = i + 1 := by omega
        rw [hx1, List.take_succ_cons, List.mem_cons] at hy
        rcases hy with rfl | hy
        · simpa [hx1] using hlt
        · simpa [hx1] using hall y hy
    · rintro ⟨hx, hall⟩
      cases hxv : x with
      | zero => left; rfl
      | succ x' =>
        right
        subst hxv
        refine (mem_checkpointsFrom_some rest l 1 _).2
          ⟨x', by simp at hx; omega, by omega, ?_, ?_⟩
        · have := hall l (by simp [List.take_succ_cons])
          simpa using this
        · intro y hy
          have := hall y (by rw [List.take_succ_cons, List.mem_cons]; right; exact hy)
          simpa using this

/-! ## The epoch loop's live-dataset discipline (`train.py`)

The model is constructed with `data=train_data`, so the vector field's
live `Dataset` reference starts as the training `Dataset`.  Each epoch
runs the training windows (no swap), then for each validation window
executes `model.odefunc.data = valid_data`, the forward call, and
`model.odefunc.data = train_data`.  The trace below records, for every
forward call the loop makes, which phase it is in and which `Dataset`
reference is live at that instant. -/

/-- Which loop a forward call belongs to. -/
inductive Phase where
  | trainFwd
  | validFwd
  deriving DecidableEq, Repr

/-- One forward call of the epoch loop: its phase and the `Dataset` that is
live (referenced by the vector field) while it runs. -/
structure FwdEvent where
  phase : Phase
  live : Dataset

/-- The validation loop: for each window, set the live reference to the
validation `Dataset`, make the forward call, and restore the training
`Dataset`; returns the calls made and the final live reference. -/
def validLoop (trainD validD : Dataset) : ℕ → Dataset → List FwdEvent × Dataset
  | 0, live => ([], live)
  | n + 1, _ =>
    let p := validLoop trainD validD n trainD
    (⟨.validFwd, validD⟩ :: p.1, p.2)

/-- The training loop: each window's forward call runs against whatever
reference is live (no swap happens here). -/
def trainLoop (nTrain : ℕ) (live : Dataset) : List FwdEvent :=
  List.replicate nTrain ⟨.trainFwd, live⟩

/-- One epoch: the training windows, then the validation windows. -/
def epochRun (trainD validD : Dataset) (nT nV : ℕ) (live : Dataset) :
    List FwdEvent × Dataset :=
  let vp := validLoop trainD validD nV live
  (trainLoop nT live ++ vp.1, vp.2)

/-- The epoch loop, threading the live reference from epoch to epoch. -/
def runEpochs (trainD validD : Dataset) (nT nV : ℕ) :
    ℕ → Dataset → List FwdEvent × Dataset
  | 0, live => ([], live)
  | e + 1, live =>
    let p := epochRun trainD validD nT nV live
    let q := runEpochs trainD validD nT nV e p.2
    (p.1 ++ q.1, q.2)

/-- A whole training run: the model starts with the training `Dataset`
live (it was constructed with `data=train_data`). -/
def trainingTrace (trainD validD : Dataset) (nT nV epochs : ℕ) :
    List FwdEvent × Dataset :=
  runEpochs trainD validD nT nV epochs trainD

theorem validLoop_final (trainD validD : Dataset) :
    ∀ n, (validLoop trainD validD n trainD).2 = trainD := by
  intro n
  cases n with
  | zero => rfl
  | succ n =>
    induction n with
    | zero => rfl
    | succ m ih => exact ih

theorem validLoop_events (trainD validD : Dataset) :
    ∀ n live ev, ev ∈ (validLoop trainD validD n live).1 →
      ev = ⟨.validFwd, validD⟩ := by
  intro n
  induction n with
  | zero => intro live ev hev; cases hev
  | succ m ih =>
    intro live ev hev
    rcases List.mem_cons.1 hev with rfl | hev'
    · rfl
    · exact ih trainD ev hev'

/-! ## Per-window training computation (`train.py`, inner loop)

Per training window the loop executes `optimizer.zero_grad()`, the
forward pass, the loss computation and accumulation, `loss.backward()`,
and `optimizer.step()`, in that order. -/

/-- The optimizer-relevant operations of the inner training loop. -/
inductive TrainOp where
  | zeroGrad
  | forwardPass
  | backwardPass
  | optStep
  deriving DecidableEq, Repr

/-- The operations one training window triggers, in program order. -/
def windowOps : List TrainOp :=
  [.zeroGrad, .forwardPass, .backwardPass, .optStep]

/-- The operations of one epoch over `numWindows` training windows. -/
def epochTrainOps (numWindows : ℕ) : List TrainOp :=
  (List.replicate numWindows windowOps).flatten

/-- The operations of a whole run. -/
def runTrainOps (numEpochs numWindows : ℕ) : List TrainOp :=
  (List.replicate numEpochs (epochTrainOps numWindows)).flatten

theorem count_flatten_replicate (l : List TrainOp) (op : TrainOp) :
    ∀ n, ((List.replicate n l).flatten).count op = n * l.count op := by
  intro n
  induction n with
  | zero => simp
  | succ m ih =>
    rw [List.replicate_succ, List.flatten_cons, List.count_append, ih]
    ring

/-- The mean of a list of reals (`torch.Tensor.mean`); `0` on the empty
list, as the division by zero is. -/
noncomputable def meanR (l : List ℝ) : ℝ := l.sum / l.length

/-- `torch.distributions.normal.Normal(μ, σ).log_prob(x)`:
`-((x - μ)² / (2σ²)) - log σ - log √(2π)`. -/
noncomputable def normalLogPdf (μ σ x : ℝ) : ℝ :=
  -((x - μ) ^ 2) / (2 * σ ^ 2) - Real.log σ - Real.log (Real.sqrt (2 * Real.pi))

/-- The per-window training loss exactly as `train.py` computes it:
`-infect_dist.log_prob(infect_window).mean()`. -/
noncomputable def codeTrainLoss (mu y : List ℝ) (σ : ℝ) : ℝ :=
  -(meanR (List.zipWith (fun m t => normalLogPdf m σ t) mu y))

/-- The loss as the spec words it: the mean over timesteps of the negative
log-probability of the true target under `Normal(prediction, std)`. -/
noncomputable def specWindowNLL (mu y : List ℝ) (σ : ℝ) : ℝ :=
  meanR (List.zipWith (fun m t => -(normalLogPdf m σ t)) mu y)

/-! ## Non-finite loss accumulation (`train.py`, inner loop)

`train_total_loss += train_loss.item()` runs unconditionally; IEEE
accumulation is modelled by a loss value that is either finite or
non-finite (NaN/±inf), with non-finiteness absorbing under addition and
division. -/

/-- A float loss value: finite, or non-finite (NaN or ±inf). -/
inductive FLoss where
  | fin (x : ℚ)
  | nonfin
  deriving DecidableEq, Repr

/-- Float addition: a non-finite operand makes the sum non-finite. -/
def FLoss.add : FLoss → FLoss → FLoss
  | .fin a, .fin b => .fin (a + b)
  | _, _ => .nonfin

/-- Float division by a (positive) window count. -/
def FLoss.divNat : FLoss → ℕ → FLoss
  | .fin a, n => .fin (a / n)
  | .nonfin, _ => .nonfin

/-- `train_total_loss` at the end of an epoch whose per-window losses are
`losses`: the unconditional running sum of the inner loop. -/
def codeEpochTotalLoss (losses : List FLoss) : FLoss :=
  losses.foldl FLoss.add (.fin 0)

/-- `train_avg_loss = train_total_loss / train_data.num_windows`. -/
def codeEpochAvgLoss (losses : List FLoss) : FLoss :=
  (codeEpochTotalLoss losses).divNat losses.length

theorem foldl_add_nonfin : ∀ l : List FLoss, l.foldl FLoss.add .nonfin = .nonfin := by
  intro l
  induction l with
  | nil => rfl
  | cons a r ih =>
    have hadd : FLoss.add .nonfin a = .nonfin := by cases a <;> rfl
    simp [List.foldl_cons, hadd, ih]

/-! ## Evaluator denormalization (`test_in.py`) -/

/-- `test_in.py`: `pred_infect = infect_hat * train_data.infect_stds +
train_data.infect_means` (elementwise over the predicted window). -/
def codePredInfect (train_data _test_data : Dataset) (infect_hat : List ℚ) : List ℚ :=
  infect_hat.map (fun x => x * train_data.infect_stds + train_data.infect_means)

/-- `test_in.py`: `gt_infect = gt_infect_window * test_data.infect_stds +
test_data.infect_means` (elementwise over the ground-truth window). -/
def codeGtInfect (_train_data test_data : Dataset) (gt_infect_window : List ℚ) : List ℚ :=
  gt_infect_window.map (fun x => x * test_data.infect_stds + test_data.infect_means)

/-- Denormalization with a given `Dataset`'s target statistics
(`x * stds + means`, the inverse of the normalization). -/
def denormalize (stats_src : Dataset) (xs : List ℚ) : List ℚ :=
  xs.map (fun x => x * stats_src.infect_stds + stats_src.infect_means)

/-! ## `test_in.py:get_indexes_to_keep` -/

/-- `test_in.py:get_indexes_to_keep`: keep
`floor(original_length * (1 - drop_rate))` indexes sampled without
replacement from `range(original_length)` and return them sorted.
`np.random.choice(original_length, k, replace=False)` is modelled by
taking the first `k` entries of `perm`, the random permutation of
`range(original_length)` the generator draws. -/
def get_indexes_to_keep (original_length : ℕ) (drop_rate : ℚ)
    (perm : List ℕ) : List ℕ :=
  let num_to_keep := (⌊(original_length : ℚ) * (1 - drop_rate)⌋).toNat
  (perm.take num_to_keep).mergeSort (· ≤ ·)

/-- A training `Dataset` with target statistics mean `0`, std `1`. -/
def dsTrain : Dataset :=
  { weather := [], infect := [], infect_means := 0, infect_stds := 1,
    window_length := 250 }

/-- A test `Dataset` with target statistics mean `1`, std `2`. -/
def dsTest : Dataset :=
  { weather := [], infect := [], infect_means := 1, infect_stds := 2,
    window_length := 100 }

end BlackSigatoka

namespace BlackSigatoka

/-- C3: a checkpoint is written after epoch `e` iff epoch `e`'s average
validation loss is strictly lower than every earlier epoch's (the first
epoch, with no earlier epochs, always checkpoints); on the validation-loss
sequence `[0.5, 0.6, 0.4, 0.4, 0.3]` checkpoints are written at epochs 0,
2 and 4 only. -/
theorem checkpoint_iff_strict_improvement :
    (∀ (losses : List ℚ) (e : ℕ),
        e ∈ checkpointEpochs losses ↔
          ∃ he : e < losses.length, ∀ y ∈ losses.take e, losses[e] < y)
    ∧ checkpointEpochs
        [mkRat 1 2, mkRat 3 5, mkRat 2 5, mkRat 2 5, mkRat 3 10] = [0, 2, 4] := by
  refine ⟨fun losses e => mem_checkpointEpochs losses e, by decide⟩

/-- In a `≤`-chained list, every member lies between the head and the
last element. -/
theorem chain_head_le_mem_le_getLast (l : List ℚ) (hl : l.Chain' (· ≤ ·))
    (hne : l ≠ []) : ∀ x ∈ l, l.head hne ≤ x ∧ x ≤ l.getLast hne := by
  have hp := (List.chain'_iff_pairwise.1 hl)
  rw [List.pairwise_iff_getElem] at hp
  intro x hx
  obtain ⟨j, hj, rfl⟩ := List.mem_iff_getElem.1 hx
  have hlen : 0 < l.length := List.length_pos.2 hne
  constructor
  · rw [List.head_eq_getElem_zero hne]
    rcases Nat.eq_zero_or_pos j with rfl | hpos
    · exact le_refl _
    · exact hp 0 j hlen hj hpos
  · rw [List.getLast_eq_getElem]
    rcases eq_or_lt_of_le (Nat.le_pred_of_lt hj) with heq | hlt
    · exact le_of_eq (by congr)
    · exact hp j (l.length - 1) hj (by omega) hlt

/-- A tiny concrete model instance used to witness the forward-pass
claims: one covariate feature, hidden size 1, output size 1. -/
def tinyModel : Model :=
  { hyperparams := hpA
    encoder := ⟨⟨[[1, 1]], [0]⟩⟩
    odefunc := ⟨⟨[[1], [2], [3]], [[4], [5], [6]], 0, 1, 128⟩, 0, ⟨[], ⟨[[1, 1]], [0]⟩⟩⟩
    decoder := ⟨[], ⟨[[1]], [0]⟩⟩ }

/-- C1: a forward call returns exactly one prediction per entry of
`time_window` (in order, as the list of integrated states is decoded
positionally), each of dimension `output_dims`, for every hidden size,
layer-width configuration, and number of rows in the covariate/target
windows; the only shape facts used are that the decoder's final affine
readout has `output_dims` rows. -/
theorem forward_shape_contract (M : Model) (w i : List Vec) (ts : List ℚ) (ν : Vec)
    (hw : M.decoder.final.w.length = M.hyperparams.output_dims)
    (hb : M.decoder.final.b.length = M.hyperparams.output_dims) :
    (M.forward w i ts ν).output.length = ts.length ∧
      ∀ p ∈ (M.forward w i ts ν).output, p.length = M.hyperparams.output_dims := by
  constructor
  · simp [Model.forward, odeintEuler_fst_length]
  · intro p hp
    simp only [Model.forward, List.mem_map] at hp
    obtain ⟨q, _, rfl⟩ := hp
    simp [mlp_apply_length, hw, hb]

/-- C1 witness: the shape contract evaluated on `tinyModel` with a
three-row data window and a two-entry time window. -/
theorem forward_shape_contract_witness :
    (tinyModel.forward [[1], [2], [3]] [[4], [5], [6]] [0, 1] [0]).output.length
        = [(0 : ℚ), 1].length ∧
      ∀ p ∈ (tinyModel.forward [[1], [2], [3]] [[4], [5], [6]] [0, 1] [0]).output,
        p.length = tinyModel.hyperparams.output_dims :=
  forward_shape_contract tinyModel [[1], [2], [3]] [[4], [5], [6]] [0, 1] [0] rfl rfl

/-- C2: before integrating, `forward` records the first requested
timestamp as the vector field's `start_time` and hands the integrator the
shifted time vector, whose first entry is `0`; consequently (for a
monotone time window) the vector field is evaluated only at relative
times within `[0, time_window[-1] - time_window[0]]`. -/
theorem forward_time_zeroing (M : Model) (w i : List Vec) (ts : List ℚ) (ν : Vec)
    (hne : ts ≠ []) (hsort : ts.Chain' (· ≤ ·)) :
    (M.forward w i ts ν).start_time = ts.head hne ∧
      (M.forward w i ts ν).shifted_times = ts.map (· - ts.head hne) ∧
      (M.forward w i ts ν).shifted_times.head? = some 0 ∧
      ∀ t ∈ (M.forward w i ts ν).queried,
        0 ≤ t ∧ t ≤ ts.getLast hne - ts.head hne := by
  obtain ⟨a, l, rfl⟩ := List.exists_cons_of_ne_nil hne
  refine ⟨by simp [Model.forward], by simp [Model.forward], by simp [Model.forward], ?_⟩
  intro t ht
  have hq : (Model.forward M w i (a :: l) ν).queried
      = ((a :: l).map (· - a)).dropLast := by
    simp [Model.forward, odeintEuler_snd]
  rw [hq] at ht
  have ht' := (List.dropLast_sublist _).subset ht
  obtain ⟨s, hs, rfl⟩ := List.mem_map.1 ht'
  obtain ⟨hle, hge⟩ := chain_head_le_mem_le_getLast (a :: l) hsort hne s hs
  simp only [List.head_cons] at hle
  constructor
  · simpa using hle
  · simpa using sub_le_sub_right hge a

/-- C2 witness: the time-zeroing facts evaluated on `tinyModel` with the
monotone time window `[3, 5, 6]`. -/
theorem forward_time_zeroing_witness :
    (tinyModel.forward [[1], [2], [3]] [[4], [5], [6]] [3, 5, 6] [0]).start_time
        = ([(3 : ℚ), 5, 6].head (by simp)) ∧
      (tinyModel.forward [[1], [2], [3]] [[4], [5], [6]] [3, 5, 6] [0]).shifted_times
        = [(3 : ℚ), 5, 6].map (· - [(3 : ℚ), 5, 6].head (by simp)) ∧
      (tinyModel.forward [[1], [2], [3]] [[4], [5], [6]] [3, 5, 6] [0]).shifted_times.head?
        = some 0 ∧
      ∀ t ∈ (tinyModel.forward [[1], [2], [3]] [[4], [5], [6]] [3, 5, 6] [0]).queried,
        0 ≤ t ∧ t ≤ [(3 : ℚ), 5, 6].getLast (by simp) - [(3 : ℚ), 5, 6].head (by simp) :=
  forward_time_zeroing tinyModel [[1], [2], [3]] [[4], [5], [6]] [3, 5, 6] [0]
    (by simp) (by norm_num)

/-- C6: in every forward call the encoder input is the covariate and
target windows concatenated featurewise and then reversed along time, and
the initial hidden state is the fresh draw at the random stream's current
position — it does not depend on the model's parameters, and the call
advances the stream, so the next forward call uses the next
(independent) draw. -/
theorem forward_encoder_input_fresh_state (M : Model) (r : Rng)
    (w i : List Vec) (ts : List ℚ) :
    (M.forwardR r w i ts).1.enc_input = (List.zipWith (· ++ ·) w i).reverse ∧
      (M.forwardR r w i ts).1.h_init = r.stream r.pos ∧
      (M.forwardR r w i ts).2.pos = r.pos + 1 ∧
      (M.forwardR (M.forwardR r w i ts).2 w i ts).1.h_init = r.stream (r.pos + 1) ∧
      ∀ M' : Model, (M'.forwardR r w i ts).1.h_init = (M.forwardR r w i ts).1.h_init :=
  ⟨rfl, rfl, rfl, rfl, fun _ => rfl⟩

/-- C4: along the whole epoch loop, every validation forward call runs
with the validation `Dataset` live and every training forward call runs
with the training `Dataset` live; after the loop the training `Dataset`
is live again (each validation call's swap is restored immediately after
it returns, so the next event — training or validation — and the final
state see the training `Dataset`). -/
theorem live_dataset_invariant (trainD validD : Dataset) (nT nV epochs : ℕ) :
    (∀ ev ∈ (trainingTrace trainD validD nT nV epochs).1,
        (ev.phase = .trainFwd → ev.live = trainD) ∧
          (ev.phase = .validFwd → ev.live = validD)) ∧
      (trainingTrace trainD validD nT nV epochs).2 = trainD := by
  unfold trainingTrace
  induction epochs with
  | zero => exact ⟨fun ev hev => absurd hev (by simp [runEpochs]), rfl⟩
  | succ e ih =>
    have hfinal : (epochRun trainD validD nT nV trainD).2 = trainD := by
      unfold epochRun
      cases nV with
      | zero => rfl
      | succ m => exact validLoop_final trainD validD (m + 1)
    constructor
    · intro ev hev
      simp only [runEpochs, hfinal] at hev
      rcases List.mem_append.1 hev with hev₁ | hev₂
      · unfold epochRun at hev₁
        rcases List.mem_append.1 hev₁ with hevT | hevV
        · have := List.eq_of_mem_replicate hevT
          subst this
          exact ⟨(fun _ => rfl), (fun hphase => by cases hphase)⟩
        · have := validLoop_events trainD validD nV trainD ev hevV
          subst this
          exact ⟨(fun hphase => by cases hphase), (fun _ => rfl)⟩
      · exact ih.1 ev hev₂
    · simp only [runEpochs, hfinal]
      exact ih.2

theorem sum_map_neg (l : List ℝ) : (l.map (fun z => -z)).sum = -l.sum := by
  induction l with
  | nil => simp
  | cons a r ih => simp [ih]; ring

/-- C5: the per-window training loss of `train.py` is the negative mean
over timesteps of the log-probability of the (normalized) target under a
Normal centered at the prediction with fixed scale `std` — equal to the
mean per-timestep negative log-likelihood — and the optimizer steps once
per window (E·W steps in a run of `E` epochs over `W` windows, `W` per
epoch, not once per epoch), each window executing gradient reset, forward
pass, backward pass, and step in program order. -/
theorem train_loss_and_per_window_step (mu y : List ℝ) (σ : ℝ) (E W : ℕ) :
    codeTrainLoss mu y σ = specWindowNLL mu y σ ∧
      (runTrainOps E W).count .optStep = E * W ∧
      (epochTrainOps W).count .optStep = W ∧
      windowOps.indexOf .zeroGrad < windowOps.indexOf .backwardPass ∧
      windowOps.indexOf .forwardPass < windowOps.indexOf .backwardPass ∧
      windowOps.indexOf .backwardPass < windowOps.indexOf .optStep := by
  refine ⟨?_, ?_, ?_, by decide, by decide, by decide⟩
  · unfold codeTrainLoss specWindowNLL meanR
    have hmap : List.zipWith (fun m t => -(normalLogPdf m σ t)) mu y
        = (List.zipWith (fun m t => normalLogPdf m σ t) mu y).map (fun z => -z) :=
      (List.map_zipWith _ _ _ _).symm
    rw [hmap, List.length_map, sum_map_neg]
    ring
  · unfold runTrainOps
    rw [count_flatten_replicate]
    unfold epochTrainOps
    rw [count_flatten_replicate]
    have : windowOps.count .optStep = 1 := by decide
    rw [this]
    ring
  · unfold epochTrainOps
    rw [count_flatten_replicate]
    have : windowOps.count .optStep = 1 := by decide
    rw [this]
    ring

/-- C7: the trainer has no finiteness guard — a single non-finite
per-window loss is accumulated into `train_total_loss` and makes the
reported epoch average non-finite, for every placement of the bad window
within the epoch. -/
theorem nonfinite_loss_accumulated (pre post : List FLoss) :
    codeEpochTotalLoss (pre ++ .nonfin :: post) = .nonfin ∧
      codeEpochAvgLoss (pre ++ .nonfin :: post) = .nonfin := by
  have htot : codeEpochTotalLoss (pre ++ .nonfin :: post) = .nonfin := by
    unfold codeEpochTotalLoss
    rw [List.foldl_append, List.foldl_cons]
    have habs : ∀ a : FLoss, FLoss.add a .nonfin = .nonfin := fun a => by
      cases a <;> rfl
    rw [habs]
    exact foldl_add_nonfin post
  exact ⟨htot, by unfold codeEpochAvgLoss; rw [htot]; rfl⟩

/-- C8, counterexample: with training statistics (mean 0, std 1) and test
statistics (mean 1, std 2), the ground-truth value `1` is reported by
`test_in.py` as `1 * 2 + 1 = 3`, not as its training-statistics
denormalization `1 * 1 + 0 = 1` — so the ground truth is *not*
denormalized with the training `Dataset`'s statistics. -/
theorem evaluator_gt_uses_test_stats :
    codeGtInfect dsTrain dsTest [1] = [3] ∧
      denormalize dsTrain [1] = [1] ∧
      codeGtInfect dsTrain dsTest [1] ≠ denormalize dsTrain [1] := by
  refine ⟨?_, ?_, ?_⟩ <;>
    norm_num [codeGtInfect, denormalize, dsTrain, dsTest]

/-- C8 (amended): in the Evaluator the *predicted* infection values are
denormalized with the training `Dataset`'s statistics, while the
*ground-truth* values are denormalized with the evaluation (test)
`Dataset`'s own statistics. -/
theorem evaluator_denormalization (train_data test_data : Dataset)
    (infect_hat gt_infect_window : List ℚ) :
    codePredInfect train_data test_data infect_hat
        = denormalize train_data infect_hat ∧
      codeGtInfect train_data test_data gt_infect_window
        = denormalize test_data gt_infect_window :=
  ⟨rfl, rfl⟩

/-- C10: for a drop rate in `[0, 1]` and any permutation the random
generator draws, `get_indexes_to_keep` returns a sorted list of exactly
`floor(original_length * (1 - drop_rate))` pairwise-distinct indexes,
each below `original_length`. -/
theorem get_indexes_to_keep_spec (n : ℕ) (r : ℚ) (perm : List ℕ)
    (hr0 : 0 ≤ r) (_hr1 : r ≤ 1) (hperm : perm.Perm (List.range n)) :
    (get_indexes_to_keep n r perm).length = (⌊(n : ℚ) * (1 - r)⌋).toNat ∧
      (get_indexes_to_keep n r perm).Nodup ∧
      (∀ x ∈ get_indexes_to_keep n r perm, x < n) ∧
      (get_indexes_to_keep n r perm).Sorted (· ≤ ·) := by
  have hks : (⌊(n : ℚ) * (1 - r)⌋).toNat ≤ n := by
    have h1 : (n : ℚ) * (1 - r) ≤ (n : ℚ) :=
      mul_le_of_le_one_right (by exact_mod_cast Nat.zero_le n) (by linarith)
    have h2 : ⌊(n : ℚ) * (1 - r)⌋ ≤ (n : ℤ) := by
      have := Int.floor_le_floor h1
      rwa [Int.floor_natCast] at this
    exact Int.toNat_le.2 h2
  have hplen : perm.length = n := by
    have := hperm.length_eq
    simpa using this
  have hmperm := List.mergeSort_perm
    (perm.take (⌊(n : ℚ) * (1 - r)⌋).toNat) (fun a b : ℕ => a ≤ b)
  refine ⟨?_, ?_, ?_, ?_⟩
  · unfold get_indexes_to_keep
    rw [hmperm.length_eq, List.length_take, hplen]
    exact Nat.min_eq_left hks
  · unfold get_indexes_to_keep
    refine hmperm.nodup_iff.2 ?_
    refine (List.take_sublist _ _).nodup ?_
    exact hperm.nodup_iff.2 (List.nodup_range n)
  · intro x hx
    unfold get_indexes_to_keep at hx
    have hx' := hmperm.subset hx
    have hx'' := (List.take_sublist _ _).subset hx'
    have := hperm.subset hx''
    simpa using this
  · unfold get_indexes_to_keep
    have h := @List.sorted_mergeSort ℕ (fun a b => decide (a ≤ b))
      (fun a b c hab hbc => by simp_all; omega)
      (fun a b => by simp [Bool.or_eq_true]; omega)
      (perm.take (⌊(n : ℚ) * (1 - r)⌋).toNat)
    simpa [List.Sorted] using h

/-- C10 witness: `n = 5`, `drop_rate = 2/5`, the generator's permutation
`[3, 0, 4, 1, 2]`; the kept indexes are `floor(5 · 3/5) = 3` many,
distinct, below 5, and sorted. -/
theorem get_indexes_to_keep_spec_witness :
    (get_indexes_to_keep 5 (mkRat 2 5) [3, 0, 4, 1, 2]).length
        = (⌊(5 : ℚ) * (1 - mkRat 2 5)⌋).toNat ∧
      (get_indexes_to_keep 5 (mkRat 2 5) [3, 0, 4, 1, 2]).Nodup ∧
      (∀ x ∈ get_indexes_to_keep 5 (mkRat 2 5) [3, 0, 4, 1, 2], x < 5) ∧
      (get_indexes_to_keep 5 (mkRat 2 5) [3, 0, 4, 1, 2]).Sorted (· ≤ ·) :=
  get_indexes_to_keep_spec 5 (mkRat 2 5) [3, 0, 4, 1, 2]
    (by decide) (by decide) (by decide)

/-- C9, counterexample: the two distinct hyperparameter tuples `hpA` and
`hpB` (differing only in learning rate, `2e-4` vs `2.04e-4`) receive the
same job identifier, so `get_job_id` is not injective. -/
theorem get_job_id_not_injective :
    get_job_id hpA = get_job_id hpB ∧ hpA ≠ hpB := by
  refine ⟨by decide, by decide⟩

/-- C9 (amended): the job identifier is a deterministic function of the
fields region, solver, learning rate, per-component layer-width lists,
hidden size, window length, epoch count, and tolerances — two
hyperparameter records agreeing on those fields receive the same
identifier — but it is not injective on them (see the counterexample). -/
theorem get_job_id_deterministic (h₁ h₂ : Hyperparameters)
    (hregion : h₁.region = h₂.region) (hsolver : h₁.solver = h₂.solver)
    (hlr : h₁.lr = h₂.lr) (henc : h₁.encoder_fc_dims = h₂.encoder_fc_dims)
    (hhid : h₁.hidden_dims = h₂.hidden_dims)
    (hode : h₁.odefunc_fc_dims = h₂.odefunc_fc_dims)
    (hdec : h₁.decoder_fc_dims = h₂.decoder_fc_dims)
    (hwin : h₁.window_length = h₂.window_length)
    (hep : h₁.num_epochs = h₂.num_epochs)
    (hrtol : h₁.rtol = h₂.rtol) (hatol : h₁.atol = h₂.atol) :
    get_job_id h₁ = get_job_id h₂ := by
  unfold get_job_id
  rw [hregion, hsolver, hlr, henc, hhid, hode, hdec, hwin, hep, hrtol, hatol]

/-- C9 witness: the dropout rate is not part of the identifier, so two
records differing only there satisfy the determinism theorem's hypotheses
and receive equal identifiers. -/
theorem get_job_id_deterministic_witness :
    get_job_id hpA = get_job_id { hpA with dropout_rate := mkRat 1 4 } :=
  get_job_id_deterministic hpA { hpA with dropout_rate := mkRat 1 4 }
    rfl rfl rfl rfl rfl rfl rfl rfl rfl rfl rfl

end BlackSigatoka
